import Mathlib

/-!
Verification of terminaltube (a Go terminal media player) against its
natural-language specification.

Conventions of the shallow embedding:
* Go unsigned 8-bit arithmetic is modelled on Nat with explicit % 256
  at every operation that can wrap.
* Go int is modelled as ℤ; Go integer division truncates toward zero,
  modelled by Int.tdiv where it matters.
* Go float64 arithmetic is modelled exactly on ℚ; the conversion
  int(f) / uint8(f) (truncation toward zero) is modelled by ratTrunc.
* Strings are Lean Strings; environment lookups become parameters.
-/

namespace TerminalTube

/-- Truncation toward zero of a rational, the behaviour of Go's
float-to-integer conversion for in-range values. -/
def ratTrunc (q : ℚ) : ℤ :=
  if q < 0 then -(⌊-q⌋) else ⌊q⌋

/-! ## ASCII renderer: per-channel adjustment and ANSI-256 quantisation
(src/internal/renderer/unicode.go) -/

/-- Clamp of the adjusted float channel to [0, 255], as in adjustPixel. -/
def clamp255 (x : ℚ) : ℚ :=
  if x < 0 then 0 else if 255 < x then 255 else x

/-- adjustPixel from unicode.go: additive brightness is applied first,
then contrast around the midpoint, then the clamp, then uint8 conversion.
value is the 8-bit channel, brightness and contrast are float64 options. -/
def adjustPixel (value : ℕ) (brightness contrast : ℚ) : ℕ :=
  let a1 : ℚ := (value : ℚ) + brightness * 255
  let a2 : ℚ := ((a1 / 255 - 1/2) * contrast + 1/2) * 255
  (ratTrunc (clamp255 a2)).toNat

/-- The elementary brightness step of the spec: additive term b·255. -/
def applyBrightness (b : ℚ) (x : ℚ) : ℚ := x + b * 255

/-- The elementary contrast step of the spec: ((x/255 − 0.5)·k + 0.5)·255. -/
def applyContrast (k : ℚ) (x : ℚ) : ℚ := ((x / 255 - 1/2) * k + 1/2) * 255

/-- The adjustment as the claim orders it: contrast applied to the raw
channel first, additive brightness afterwards, then clamp. -/
def adjustPixelContrastFirst (value : ℕ) (brightness contrast : ℚ) : ℕ :=
  (ratTrunc (clamp255 (applyBrightness brightness
      (applyContrast contrast (value : ℚ))))).toNat

/-- rgbToAnsi256 from unicode.go, with Go's uint8 arithmetic made
explicit: every multiplication/addition of uint8 operands is reduced
mod 256 before the (non-wrapping) division. Inputs are 8-bit values. -/
def rgbToAnsi256 (red green blue : ℕ) : ℕ :=
  if red = green ∧ green = blue then
    if red < 8 then 16
    else if 248 < red then 231
    else 232 + ((red - 8) * 23 % 256) / 240
  else
    let r6 := ((red * 5 + 127) % 256) / 255
    let g6 := ((green * 5 + 127) % 256) / 255
    let b6 := ((blue * 5 + 127) % 256) / 255
    let r6 := if 5 < r6 then 5 else r6
    let g6 := if 5 < g6 then 5 else g6
    let b6 := if 5 < b6 then 5 else b6
    16 + 36 * r6 + 6 * g6 + b6

/-- The channel-to-level map the spec describes: ⌊(c·5 + 127)/255⌋ in
exact integer arithmetic, clamped to at most 5. -/
def ansiCubeLevelSpec (c : ℕ) : ℕ :=
  min ((c * 5 + 127) / 255) 5

/-! ## Geometry calculators (src/main.go) -/

/-- The maxWidth computed by calculateOptimalRenderSize: full terminal
width, raised to at least 10. -/
def maxWOf (termWidth : ℤ) : ℤ :=
  if termWidth < 10 then 10 else termWidth

/-- The maxHeight computed by calculateOptimalRenderSize: terminal
height minus 2 status rows, raised to at least 5. -/
def maxHOf (termHeight : ℤ) : ℤ :=
  if termHeight - 2 < 5 then 5 else termHeight - 2

/-- Fit-to-width height: int(float64(maxWidth) / imgAspect / charAspect)
with charAspect = 2. -/
def fitHeight (w : ℤ) (imgAspect : ℚ) : ℤ :=
  ratTrunc ((w : ℚ) / imgAspect / 2)

/-- Fit-to-height width: int(float64(maxHeight) * imgAspect * charAspect)
with charAspect = 2. -/
def fitWidth (h : ℤ) (imgAspect : ℚ) : ℤ :=
  ratTrunc ((h : ℚ) * imgAspect * 2)

/-- The body of calculateOptimalRenderSize after maxWidth/maxHeight are
fixed: try fit-to-width, switch to fit-to-height when too tall, clamp to
the terminal bounds, then impose the 10×5 minimum. -/
def calcCore (imgAspect : ℚ) (maxW maxH : ℤ) : ℤ × ℤ :=
  let rh0 := fitHeight maxW imgAspect
  let rw1 := if maxH < rh0 then fitWidth maxH imgAspect else maxW
  let rh1 := if maxH < rh0 then maxH else rh0
  let rw2 := if maxW < rw1 then maxW else rw1
  let rh2 := if maxH < rh1 then maxH else rh1
  ((if rw2 < 10 then 10 else rw2), (if rh2 < 5 then 5 else rh2))

/-- calculateOptimalRenderSize from main.go: cell dimensions for an
image of imgWidth×imgHeight on a termWidth×termHeight terminal. -/
def calculateOptimalRenderSize (imgWidth imgHeight termWidth termHeight : ℤ) :
    ℤ × ℤ :=
  calcCore ((imgWidth : ℚ) / (imgHeight : ℚ)) (maxWOf termWidth) (maxHOf termHeight)

/-- The width held by calcCore just before the final 10-pixel minimum
clamp is applied (the rw2 of calcCore). -/
def corePreW (imgAspect : ℚ) (maxW maxH : ℤ) : ℤ :=
  let rh0 := fitHeight maxW imgAspect
  let rw1 := if maxH < rh0 then fitWidth maxH imgAspect else maxW
  if maxW < rw1 then maxW else rw1

/-- The width calculateOptimalRenderSize has produced just before the
final 10-pixel minimum clamp is applied. -/
def calcPreMinWidth (imgWidth imgHeight termWidth termHeight : ℤ) : ℤ :=
  corePreW ((imgWidth : ℚ) / (imgHeight : ℚ)) (maxWOf termWidth) (maxHOf termHeight)

/-- calculateOptimalRenderSizeSixel from main.go: stretch to the full
viewport at 10×19 pixels per cell, height rounded down to a multiple
of 6 with Go's truncating integer division. The image dimensions are
accepted and ignored, as in the source. -/
def calculateOptimalRenderSizeSixel (imgWidth imgHeight termWidth termHeight : ℤ) :
    ℤ × ℤ :=
  let pixelWidth := termWidth * 10
  let pixelHeight := termHeight * 19
  (pixelWidth, (Int.tdiv pixelHeight 6) * 6)

/-! ## Unicode capability detection (src/internal/terminal/capability.go) -/

/-- Initial-segment test on character lists. -/
def isPrefixSeq : List Char → List Char → Bool
  | [], _ => true
  | _ :: _, [] => false
  | a :: as, b :: bs => a == b && isPrefixSeq as bs

/-- Whether the character list sub occurs contiguously in s, the model
of Go strings.Contains. -/
def containsSeq (sub : List Char) : List Char → Bool
  | [] => sub.isEmpty
  | c :: rest => isPrefixSeq sub (c :: rest) || containsSeq sub rest

/-- Upper-casing of a character sequence, the model of strings.ToUpper
on ASCII locale names. -/
def seqToUpper (l : List Char) : List Char := l.map Char.toUpper

/-- detectUnicodeSupport from capability.go, with the four environment
reads (LC_ALL, LC_CTYPE, LANG, OS) passed as parameters: take the first
non-empty locale variable, answer true when its upper-casing contains
UTF-8 or UTF8, true on Windows, and true in the final fallback too. -/
def detectUnicodeSupport (lcAll lcCtype lang osEnv : String) : Bool :=
  let locale := if lcAll ≠ ("") then lcAll
    else if lcCtype ≠ ("") then lcCtype else lang
  let up := seqToUpper locale.toList
  if containsSeq (("UTF-8").toList) up ||
      containsSeq (("UTF8").toList) up then true
  else if osEnv = ("Windows_NT") then true
  else true

/-! ## Frame production and drop accounting
(src/internal/decoder/video.go GetFrameChannel, src/main.go playVideoFile) -/

/-- The playback statistics that survive to teardown: frames pulled
from the source by the producer goroutine, frames rendered by the
playback loop, and the FramesDropped field of the stats struct. -/
structure PlayStats where
  produced : ℕ
  rendered : ℕ
  framesDropped : ℕ
deriving DecidableEq, Repr

/-- One produced frame, as in the producer's select: when the consumer
buffer is full at send time, the frame is skipped and only frameIndex
advances; otherwise the playback loop receives it and increments
FramesRendered. No branch of either loop writes FramesDropped. -/
def stepFrame (st : PlayStats) (channelFull : Bool) : PlayStats :=
  if channelFull then
    { st with produced := st.produced + 1 }
  else
    { st with produced := st.produced + 1, rendered := st.rendered + 1 }

/-- A playback run over a schedule of buffer-full outcomes, starting
from zeroed statistics. -/
def runPlayback (flags : List Bool) : PlayStats :=
  flags.foldl stepFrame ⟨0, 0, 0⟩

/-! ## Sixel run-length encoding (src/unnamed/part_003: writeRLE and the
per-color loop of encodeSixel) -/

/-- Decimal digit bytes of n, most significant first, as fmt.Sprintf
with the %d verb writes them. -/
def digitsOf (n : ℕ) : List ℕ :=
  (Nat.digits 10 n).reverse.map (fun d => d + 48)

/-- writeRLE from the sixel encoder: nothing for an empty run, the
bytes of the escape sequence bang-count-char for a run of four or more,
literal repetitions otherwise. -/
def writeRLE (char count : ℕ) : List ℕ :=
  if count = 0 then []
  else if 3 < count then 33 :: (digitsOf count ++ [char])
  else List.replicate count char

/-- The run-length state machine of one color pass of encodeSixel:
repeated is the pending sixel byte, reps the pending run length. -/
def rlePass : List ℕ → ℕ → ℕ → List ℕ
  | [], repeated, reps => writeRLE repeated reps
  | c :: cs, repeated, reps =>
    if c = repeated then rlePass cs repeated (reps + 1)
    else writeRLE repeated reps ++ rlePass cs c 1

/-- One color pass over a sequence of sixel bytes, with the encoder's
initial state: pending byte 63 and an empty run. -/
def encodeRLE (s : List ℕ) : List ℕ := rlePass s 63 0

/-- An ASCII decimal digit byte. -/
def isDigitByte (b : ℕ) : Bool := decide (48 ≤ b ∧ b ≤ 57)

/-- Read a maximal run of decimal digit bytes, returning the
accumulated value and the unread remainder. -/
def parseDigits : List ℕ → ℕ → ℕ × List ℕ
  | [], acc => (acc, [])
  | b :: bs, acc =>
    if isDigitByte b then parseDigits bs (acc * 10 + (b - 48))
    else (acc, b :: bs)

/-- Fuel-indexed RLE decoder: a bang byte introduces a decimal count
and the byte to repeat; any other byte stands for itself. -/
def decodeRLEAux : ℕ → List ℕ → List ℕ
  | 0, _ => []
  | _ + 1, [] => []
  | fuel + 1, b :: rest =>
    if b = 33 then
      match parseDigits rest 0 with
      | (_, []) => []
      | (count, c :: rest2) => List.replicate count c ++ decodeRLEAux fuel rest2
    else b :: decodeRLEAux fuel rest

/-- RLE decoding: expand each bang-count-char group to count copies of
char and keep every other byte literally. -/
def decodeRLE (l : List ℕ) : List ℕ := decodeRLEAux l.length l

/-- A byte the sixel data generator can produce: 63 + a 6-bit value. -/
def isSixelByte (b : ℕ) : Prop := 63 ≤ b ∧ b ≤ 126

instance (b : ℕ) : Decidable (isSixelByte b) := by
  unfold isSixelByte
  infer_instance

/-! ## Sixel palette quantisation (src/unnamed/part_003: colorToPalette
and its Newton–Raphson sqrt) -/

/-- One Newton–Raphson step for the square root of x. -/
def newtonStep (x z : ℚ) : ℚ := (z + x / z) / 2

/-- n Newton–Raphson steps starting from z = x. -/
def newtonIter : ℕ → ℚ → ℚ
  | 0, x => x
  | n + 1, x => newtonStep x (newtonIter n x)

/-- sqrt from the sixel renderer: 0 for non-positive input, otherwise
ten Newton–Raphson steps seeded with the input itself. -/
def sqrtGo (x : ℚ) : ℚ := if x ≤ 0 then 0 else newtonIter 10 x

/-- colorToPalette from the sixel renderer: normalise each channel,
inverse-gamma it with sqrt, scale by 7.99/7.99/3.99, truncate, clamp,
and pack into the 8-8-4 palette index; the final uint8 conversion is
Go's reduction mod 256. -/
def colorToPalette (r g b : ℕ) : ℕ :=
  let rNorm : ℚ := (r : ℚ) / 255
  let gNorm : ℚ := (g : ℚ) / 255
  let bNorm : ℚ := (b : ℚ) / 255
  let rLevel : ℤ := ratTrunc (sqrtGo rNorm * (799/100))
  let gLevel : ℤ := ratTrunc (sqrtGo gNorm * (799/100))
  let bLevel : ℤ := ratTrunc (sqrtGo bNorm * (399/100))
  let rLevel := if 7 < rLevel then 7 else rLevel
  let gLevel := if 7 < gLevel then 7 else gLevel
  let bLevel := if 3 < bLevel then 3 else bLevel
  ((rLevel * 32 + gLevel * 4 + bLevel) % 256).toNat

/-! ## Helper lemmas -/

theorem ratTrunc_of_nonneg {q : ℚ} (h : 0 ≤ q) : ratTrunc q = ⌊q⌋ := by
  unfold ratTrunc
  rw [if_neg (not_lt.mpr h)]

theorem ratTrunc_intCast (n : ℤ) (h : 0 ≤ n) : ratTrunc (n : ℚ) = n := by
  rw [ratTrunc_of_nonneg (by exact_mod_cast h), Int.floor_intCast]

/-! ## C6: sixel viewport geometry -/

/-- C6: the bitmap-transport geometry returns pixel width CW·10 and
pixel height ⌊CH·19/6⌋·6; at 80×25 cells this is 800×474. -/
theorem calcSixel_viewport (iw ih cw ch : ℤ) (hch : 0 ≤ ch) :
    calculateOptimalRenderSizeSixel iw ih cw ch = (cw * 10, ((ch * 19) / 6) * 6) ∧
    calculateOptimalRenderSizeSixel iw ih 80 25 = (800, 474) := by
  constructor
  · show (cw * 10, (Int.tdiv (ch * 19) 6) * 6) = (cw * 10, ((ch * 19) / 6) * 6)
    have h19 : 0 ≤ ch * 19 := by positivity
    rw [Int.tdiv_eq_ediv h19 (by norm_num : (0:ℤ) ≤ 6)]
  · rfl

/-- Witness for C6 at 80×25 cells. -/
theorem calcSixel_viewport_witness :
    calculateOptimalRenderSizeSixel 0 0 80 25 = (800, 474) :=
  (calcSixel_viewport 0 0 80 25 (by decide)).2

/-! ## C9: Unicode detection -/

/-- C9 counterexample: on a non-Windows environment whose locale
variables carry no UTF-8/UTF8 marker the claim predicts false, but the
function answers true. -/
theorem detectUnicode_true_without_utf8 :
    detectUnicodeSupport ("C") ("") ("") ("linux") = true := by
  decide

/-- C9 amended: Unicode support detection returns true for every
environment; the locale check (on the first non-empty of LC_ALL,
LC_CTYPE, LANG) and the Windows check only short-circuit an answer
that the final fallback makes unconditionally true. -/
theorem detectUnicode_always_true
    (lcAll lcCtype lang osEnv : String) :
    detectUnicodeSupport lcAll lcCtype lang osEnv = true := by
  simp only [detectUnicodeSupport]
  split_ifs <;> rfl

/-! ## C8: frame drop accounting -/

/-- C8: the drop counter is never incremented. In a run of one produced
frame whose send finds the buffer full, the frame is dropped, yet
FramesDropped stays 0 and rendered + dropped fails to equal the number
of frames produced. -/
theorem framesDropped_never_incremented :
    (runPlayback [true]).produced = 1 ∧
    (runPlayback [true]).framesDropped = 0 ∧
    (runPlayback [true]).rendered + (runPlayback [true]).framesDropped ≠
      (runPlayback [true]).produced := by
  refine ⟨rfl, rfl, ?_⟩
  decide

/-! ## C2: order of brightness and contrast -/

/-- C2 counterexample: at channel 100, brightness 0.5, contrast 2 the
code (brightness before contrast) yields 255 while the claimed order
(contrast before additive brightness) yields 200. -/
theorem adjustPixel_order_counterexample :
    adjustPixel 100 (1/2) 2 = 255 ∧
    adjustPixelContrastFirst 100 (1/2) 2 = 200 ∧
    adjustPixel 100 (1/2) 2 ≠ adjustPixelContrastFirst 100 (1/2) 2 := by
  have h1 : adjustPixel 100 (1/2) 2 = 255 := by
    unfold adjustPixel clamp255 ratTrunc
    norm_num
    decide
  have h2 : adjustPixelContrastFirst 100 (1/2) 2 = 200 := by
    unfold adjustPixelContrastFirst applyContrast applyBrightness clamp255 ratTrunc
    norm_num
    decide
  refine ⟨h1, h2, ?_⟩
  rw [h1, h2]
  decide

/-- C2 amended: the per-channel adjustment applies the additive
brightness term first, then contrast around mid-gray as
((x/255 − 0.5)·k + 0.5)·255, and finally clamps to [0, 255]. -/
theorem adjustPixel_brightness_first (v : ℕ) (b k : ℚ) :
    adjustPixel v b k =
      (ratTrunc (clamp255 (applyContrast k (applyBrightness b (v : ℚ))))).toNat := by
  rfl

/-! ## C1: the 6×6×6 cube level arithmetic wraps in uint8 -/

/-- C1: at adjusted channel (255, 0, 0) — channels not all equal — the
code computes the red level in uint8 arithmetic, where (255·5 + 127)
wraps to 122 and the level collapses to 0, emitting index 16; the
claimed level ⌊(255·5 + 127)/255⌋ = 5 would give index 196, so the
level is not 5 at c = 255 as the claim requires. -/
theorem rgbToAnsi256_wrap_at_bright_red :
    rgbToAnsi256 255 0 0 = 16 ∧
    16 + 36 * ansiCubeLevelSpec 255 + 6 * ansiCubeLevelSpec 0 +
      ansiCubeLevelSpec 0 = 196 ∧
    rgbToAnsi256 255 0 0 ≠
      16 + 36 * ansiCubeLevelSpec 255 + 6 * ansiCubeLevelSpec 0 +
        ansiCubeLevelSpec 0 := by
  refine ⟨?_, ?_, ?_⟩ <;> decide

/-! ## C10: the emitted 256-color index is always in 16..255 -/

/-- C10: for 8-bit inputs the ANSI-256 index lies in 16..255 even
though the channel arithmetic wraps mod 256. -/
theorem rgbToAnsi256_range (r g b : ℕ)
    (hr : r ≤ 255) (hg : g ≤ 255) (hb : b ≤ 255) :
    16 ≤ rgbToAnsi256 r g b ∧ rgbToAnsi256 r g b ≤ 255 := by
  simp only [rgbToAnsi256]
  split_ifs <;> omega

/-- Witness for C10 at a concrete pixel. -/
theorem rgbToAnsi256_range_witness :
    16 ≤ rgbToAnsi256 10 20 30 ∧ rgbToAnsi256 10 20 30 ≤ 255 :=
  rgbToAnsi256_range 10 20 30 (by decide) (by decide) (by decide)

/-! ## C5: geometry idempotence fails at the minimum-width clamp -/

/-- C5 counterexample: for a 1×2 source on an 11×7-cell terminal the
first application returns (10, 5) — the width raised by the 10-pixel
minimum clamp — and re-applying the calculation to the half-block pixel
dimensions (10, 2·5) returns (11, 5), not (10, 5). -/
theorem calcRender_not_idempotent :
    calculateOptimalRenderSize 1 2 11 7 = (10, 5) ∧
    calculateOptimalRenderSize 10 (2 * 5) 11 7 = (11, 5) ∧
    calculateOptimalRenderSize 10 (2 * 5) 11 7 ≠ (10, 5) := by
  have h1 : calculateOptimalRenderSize 1 2 11 7 = (10, 5) := by
    unfold calculateOptimalRenderSize calcCore fitHeight fitWidth maxWOf maxHOf ratTrunc
    norm_num
  have h2 : calculateOptimalRenderSize 10 (2 * 5) 11 7 = (11, 5) := by
    unfold calculateOptimalRenderSize calcCore fitHeight fitWidth maxWOf maxHOf ratTrunc
    norm_num
  refine ⟨h1, h2, ?_⟩
  rw [h2]
  decide

/-! ## C7: the geometry calculator never returns less than 10×5 -/

/-- C7: for every input — degenerate terminal cells included — the
returned render size is at least 10×5, and on a 0×0 terminal it is
exactly the 10×5 minimum for any positive source dimensions. -/
theorem calcRender_min_bounds :
    (∀ iw ih tw th : ℤ, 10 ≤ (calculateOptimalRenderSize iw ih tw th).1 ∧
        5 ≤ (calculateOptimalRenderSize iw ih tw th).2) ∧
    (∀ iw ih : ℤ, 0 < iw → 0 < ih →
        calculateOptimalRenderSize iw ih 0 0 = (10, 5)) := by
  constructor
  · intro iw ih tw th
    unfold calculateOptimalRenderSize calcCore
    dsimp only
    constructor <;> split_ifs <;> omega
  · intro iw ih hiw hih
    have hiwq : (0 : ℚ) < (iw : ℚ) := by exact_mod_cast hiw
    have hihq : (0 : ℚ) < (ih : ℚ) := by exact_mod_cast hih
    have ha : 0 < (iw : ℚ) / (ih : ℚ) := div_pos hiwq hihq
    set a : ℚ := (iw : ℚ) / (ih : ℚ) with haDef
    have hA : maxWOf 0 = 10 := rfl
    have hB : maxHOf 0 = 5 := rfl
    unfold calculateOptimalRenderSize
    rw [hA, hB, ← haDef]
    have h0 : (0 : ℚ) ≤ ((10 : ℤ) : ℚ) / a / 2 := by positivity
    have hF : fitHeight 10 a = ⌊((10 : ℤ) : ℚ) / a / 2⌋ := by
      unfold fitHeight
      exact ratTrunc_of_nonneg h0
    have hFnn : 0 ≤ fitHeight 10 a := by
      rw [hF]
      exact Int.floor_nonneg.mpr h0
    simp only [calcCore]
    by_cases h5 : 5 < fitHeight 10 a
    · have h6 : (6 : ℚ) ≤ ((10 : ℤ) : ℚ) / a / 2 := by
        have h6a : (6 : ℤ) ≤ ⌊((10 : ℤ) : ℚ) / a / 2⌋ := by omega
        calc (6 : ℚ) = ((6 : ℤ) : ℚ) := by norm_num
        _ ≤ ⌊((10 : ℤ) : ℚ) / a / 2⌋ := by exact_mod_cast h6a
        _ ≤ _ := Int.floor_le _
      have haBound : 6 * a ≤ 5 := by
        have h10 : ((10 : ℤ) : ℚ) = 10 := by norm_num
        rw [h10] at h6
        rw [div_div] at h6
        rw [le_div_iff (by positivity)] at h6
        linarith
      have hWq : (0 : ℚ) ≤ ((5 : ℤ) : ℚ) * a * 2 := by positivity
      have hW : fitWidth 5 a < 10 := by
        unfold fitWidth
        rw [ratTrunc_of_nonneg hWq]
        apply Int.floor_lt.mpr
        push_cast
        nlinarith
      have hWnn : 0 ≤ fitWidth 5 a := by
        unfold fitWidth
        rw [ratTrunc_of_nonneg hWq]
        exact Int.floor_nonneg.mpr hWq
      split_ifs <;> simp_all <;> omega
    · split_ifs <;> simp_all <;> omega

/-- Witness for C7 at a concrete degenerate input. -/
theorem calcRender_min_bounds_witness :
    (10 ≤ (calculateOptimalRenderSize 16 9 (-3) 0).1 ∧
      5 ≤ (calculateOptimalRenderSize 16 9 (-3) 0).2) ∧
    calculateOptimalRenderSize 16 9 0 0 = (10, 5) :=
  ⟨calcRender_min_bounds.1 16 9 (-3) 0,
    calcRender_min_bounds.2 16 9 (by decide) (by decide)⟩

/-! ## C3: run-length encoding round-trip -/

theorem parseDigits_len (l : List ℕ) (acc : ℕ) :
    (parseDigits l acc).2.length ≤ l.length := by
  induction l generalizing acc with
  | nil => simp [parseDigits]
  | cons b bs ih =>
    simp only [parseDigits]
    split
    · exact le_trans (ih _) (by simp)
    · simp

theorem decodeRLEAux_nil (fuel : ℕ) : decodeRLEAux fuel [] = [] := by
  cases fuel <;> rfl

theorem decodeRLEAux_fuel (fuel1 : ℕ) :
    ∀ (fuel2 : ℕ) (l : List ℕ), l.length ≤ fuel1 → l.length ≤ fuel2 →
      decodeRLEAux fuel1 l = decodeRLEAux fuel2 l := by
  induction fuel1 with
  | zero =>
    intro fuel2 l h1 _
    have : l = [] := List.length_eq_zero.mp (Nat.le_zero.mp h1)
    subst this
    rw [decodeRLEAux_nil, decodeRLEAux_nil]
  | succ f1 ih =>
    intro fuel2 l h1 h2
    cases l with
    | nil => rw [decodeRLEAux_nil, decodeRLEAux_nil]
    | cons b rest =>
      cases fuel2 with
      | zero => simp at h2
      | succ f2 =>
        simp only [decodeRLEAux]
        split_ifs with hb
        · rcases hpd : parseDigits rest 0 with ⟨count, rest2⟩
          cases rest2 with
          | nil => rfl
          | cons c r2 =>
            have hlen : r2.length + 1 ≤ rest.length := by
              have hp := parseDigits_len rest 0
              rw [hpd] at hp
              simpa using hp
            have hr1 : r2.length ≤ f1 := by
              simp only [List.length_cons] at h1
              omega
            have hr2 : r2.length ≤ f2 := by
              simp only [List.length_cons] at h2
              omega
            dsimp only
            rw [ih f2 r2 hr1 hr2]
        · have hr1 : rest.length ≤ f1 := by
            simp only [List.length_cons] at h1
            omega
          have hr2 : rest.length ≤ f2 := by
            simp only [List.length_cons] at h2
            omega
          rw [ih f2 rest hr1 hr2]

theorem decodeRLE_cons_lit (b : ℕ) (rest : List ℕ) (hb : ¬ b = 33) :
    decodeRLE (b :: rest) = b :: decodeRLE rest := by
  show decodeRLEAux (rest.length + 1) (b :: rest) = b :: decodeRLEAux rest.length rest
  simp only [decodeRLEAux]
  rw [if_neg hb]

theorem decodeRLE_bang (rest : List ℕ) (count c : ℕ) (rest2 : List ℕ)
    (hpd : parseDigits rest 0 = (count, c :: rest2)) :
    decodeRLE (33 :: rest) = List.replicate count c ++ decodeRLE rest2 := by
  have hlen : rest2.length + 1 ≤ rest.length := by
    have hp := parseDigits_len rest 0
    rw [hpd] at hp
    simpa using hp
  show decodeRLEAux (rest.length + 1) (33 :: rest) = _
  simp only [decodeRLEAux, if_pos]
  rw [hpd]
  dsimp only
  rw [decodeRLEAux_fuel rest.length rest2.length rest2 (by omega) (by omega)]
  rfl

theorem digitsOf_all_digit (n : ℕ) : ∀ d ∈ digitsOf n, isDigitByte d = true := by
  intro d hd
  unfold digitsOf at hd
  rw [List.mem_map] at hd
  obtain ⟨e, he, hde⟩ := hd
  rw [List.mem_reverse] at he
  have h10 : e < 10 := Nat.digits_lt_base (by norm_num) he
  subst hde
  simp only [isDigitByte, decide_eq_true_eq]
  omega

theorem not_digit_of_sixel (c : ℕ) (hc : 63 ≤ c) : isDigitByte c = false := by
  simp only [isDigitByte, decide_eq_false_iff_not]
  omega

theorem parseDigits_digits_append (ds : List ℕ) :
    ∀ (r : List ℕ) (acc : ℕ), (∀ d ∈ ds, isDigitByte d = true) →
      parseDigits (ds ++ r) acc =
        parseDigits r (ds.foldl (fun a d => a * 10 + (d - 48)) acc) := by
  induction ds with
  | nil => intro r acc _; rfl
  | cons d ds ih =>
    intro r acc hds
    have hd : isDigitByte d = true := hds d (List.mem_cons_self d ds)
    simp only [List.cons_append, parseDigits, hd, if_true, List.foldl_cons]
    exact ih r _ (fun x hx => hds x (List.mem_cons_of_mem d hx))

theorem parseDigits_stop (b : ℕ) (r : List ℕ) (acc : ℕ)
    (hb : isDigitByte b = false) :
    parseDigits (b :: r) acc = (acc, b :: r) := by
  simp [parseDigits, hb]

theorem foldl_digitsOf (n : ℕ) :
    (digitsOf n).foldl (fun a d => a * 10 + (d - 48)) 0 = n := by
  unfold digitsOf
  rw [List.foldl_map, List.foldl_reverse]
  have hof : ∀ l : List ℕ,
      l.foldr (fun d a => a * 10 + (d + 48 - 48)) 0 = Nat.ofDigits 10 l := by
    intro l
    induction l with
    | nil => simp [Nat.ofDigits]
    | cons d l ihl =>
      simp only [List.foldr_cons, ihl, Nat.ofDigits_cons]
      omega
  have hcast := Nat.ofDigits_digits 10 n
  calc (Nat.digits 10 n).foldr (fun d a => a * 10 + (d + 48 - 48)) 0
      = Nat.ofDigits 10 (Nat.digits 10 n) := hof _
  _ = n := by exact_mod_cast hcast

theorem decode_replicate (n : ℕ) (c : ℕ) (hc : ¬ c = 33) (t : List ℕ) :
    decodeRLE (List.replicate n c ++ t) = List.replicate n c ++ decodeRLE t := by
  induction n with
  | zero => simp
  | succ n ih =>
    simp only [List.replicate_succ, List.cons_append]
    rw [decodeRLE_cons_lit c _ hc, ih]

theorem decode_writeRLE (c count : ℕ) (hc : 63 ≤ c) (t : List ℕ) :
    decodeRLE (writeRLE c count ++ t) = List.replicate count c ++ decodeRLE t := by
  have hc33 : ¬ c = 33 := by omega
  unfold writeRLE
  split_ifs with h0 h3
  · subst h0
    simp
  · have hpd : parseDigits (digitsOf count ++ (c :: t)) 0 = (count, c :: t) := by
      rw [parseDigits_digits_append _ _ _ (digitsOf_all_digit count),
        foldl_digitsOf, parseDigits_stop _ _ _ (not_digit_of_sixel c hc)]
    have hshape : (33 :: (digitsOf count ++ [c])) ++ t
        = 33 :: (digitsOf count ++ (c :: t)) := by simp
    rw [hshape, decodeRLE_bang _ count c t hpd]
  · exact decode_replicate count c hc33 t

theorem rlePass_decode (cs : List ℕ) :
    ∀ repeated reps, (∀ x ∈ cs, 63 ≤ x) → 63 ≤ repeated →
      decodeRLE (rlePass cs repeated reps) =
        List.replicate reps repeated ++ cs := by
  induction cs with
  | nil =>
    intro rep reps _ hrep
    show decodeRLE (writeRLE rep reps) = _
    have hd := decode_writeRLE rep reps hrep []
    have hnil : decodeRLE ([] : List ℕ) = [] := rfl
    rw [hnil] at hd
    simpa using hd
  | cons c cs ih =>
    intro rep reps hmem hrep
    have hcmem : 63 ≤ c := hmem c (List.mem_cons_self c cs)
    simp only [rlePass]
    split_ifs with hEq
    · subst hEq
      rw [ih c (reps + 1) (fun x hx => hmem x (List.mem_cons_of_mem c hx)) hcmem]
      rw [List.replicate_succ' reps c]
      simp
    · rw [decode_writeRLE rep reps hrep _,
        ih c 1 (fun x hx => hmem x (List.mem_cons_of_mem c hx)) hcmem]
      simp

theorem rlePass_replicate_self (n : ℕ) :
    ∀ (reps c : ℕ), rlePass (List.replicate n c) c reps = writeRLE c (reps + n) := by
  induction n with
  | zero => intro reps c; rfl
  | succ n ih =>
    intro reps c
    simp only [List.replicate_succ, rlePass, if_pos]
    rw [ih (reps + 1) c]
    congr 1
    omega

theorem encodeRLE_replicate (c n : ℕ) (hn : 1 ≤ n) :
    encodeRLE (List.replicate n c) = writeRLE c n := by
  by_cases hc : c = 63
  · subst hc
    unfold encodeRLE
    have hr := rlePass_replicate_self n 0 63
    simpa using hr
  · obtain ⟨m, rfl⟩ : ∃ m, n = m + 1 := ⟨n - 1, by omega⟩
    unfold encodeRLE
    simp only [List.replicate_succ, rlePass, if_neg hc]
    rw [rlePass_replicate_self m 1 c]
    have h0 : writeRLE 63 0 = [] := rfl
    rw [h0]
    simp only [List.nil_append]
    congr 1
    omega

/-- C3: decoding the run-length-encoded output of one color pass
reproduces the original sixel sequence; runs of four or more identical
sixels are emitted as bang-count-char and shorter runs literally. -/
theorem encodeRLE_decode_roundtrip :
    (∀ s : List ℕ, (∀ x ∈ s, isSixelByte x) → decodeRLE (encodeRLE s) = s) ∧
    (∀ c n : ℕ, isSixelByte c → 4 ≤ n →
      encodeRLE (List.replicate n c) = 33 :: (digitsOf n ++ [c])) ∧
    (∀ c n : ℕ, isSixelByte c → 1 ≤ n → n ≤ 3 →
      encodeRLE (List.replicate n c) = List.replicate n c) := by
  refine ⟨?_, ?_, ?_⟩
  · intro s hs
    unfold encodeRLE
    have hd := rlePass_decode s 63 0 (fun x hx => (hs x hx).1) (le_refl 63)
    simpa using hd
  · intro c n hc hn
    rw [encodeRLE_replicate c n (by omega)]
    unfold writeRLE
    rw [if_neg (by omega), if_pos (by omega)]
  · intro c n hc hn1 hn3
    rw [encodeRLE_replicate c n hn1]
    unfold writeRLE
    rw [if_neg (by omega), if_neg (by omega)]

/-- Witness for C3 on a concrete band: a run of five, a run of four,
and a run of two. -/
theorem encodeRLE_decode_roundtrip_witness :
    decodeRLE (encodeRLE [63, 70, 70, 70, 70, 70]) = [63, 70, 70, 70, 70, 70] ∧
    encodeRLE (List.replicate 4 70) = 33 :: (digitsOf 4 ++ [70]) ∧
    encodeRLE (List.replicate 2 70) = List.replicate 2 70 :=
  ⟨encodeRLE_decode_roundtrip.1 [63, 70, 70, 70, 70, 70] (by decide),
    encodeRLE_decode_roundtrip.2.1 70 4 (by decide) (by decide),
    encodeRLE_decode_roundtrip.2.2 70 2 (by decide) (by decide) (by decide)⟩

/-! ## C4: palette quantisation is monotone in the red channel -/

theorem newtonStep_pos (x z : ℚ) (hx : 0 < x) (hz : 0 < z) :
    0 < newtonStep x z := by
  unfold newtonStep
  positivity

theorem newtonStep_sq_ge (x z : ℚ) (hx : 0 < x) (hz : 0 < z) :
    x ≤ (newtonStep x z) ^ 2 := by
  have key : (newtonStep x z) ^ 2 - x = ((z ^ 2 - x) / (2 * z)) ^ 2 := by
    unfold newtonStep
    field_simp
    ring
  nlinarith [sq_nonneg ((z ^ 2 - x) / (2 * z))]

theorem newtonStep_mono_z (x z1 z2 : ℚ) (hx : 0 < x) (hz1 : 0 < z1)
    (h12 : z1 ≤ z2) (hsq : x ≤ z1 ^ 2) :
    newtonStep x z1 ≤ newtonStep x z2 := by
  have hz2 : 0 < z2 := lt_of_lt_of_le hz1 h12
  have key : newtonStep x z2 - newtonStep x z1
      = (z2 - z1) * (z1 * z2 - x) / (2 * (z1 * z2)) := by
    unfold newtonStep
    field_simp
    ring
  have hprod : x ≤ z1 * z2 := le_trans hsq (by nlinarith)
  have hnum : 0 ≤ (z2 - z1) * (z1 * z2 - x) :=
    mul_nonneg (by linarith) (by linarith)
  have hden : (0:ℚ) ≤ 2 * (z1 * z2) := by positivity
  have hdiff : 0 ≤ newtonStep x z2 - newtonStep x z1 := by
    rw [key]
    exact div_nonneg hnum hden
  linarith

theorem newtonStep_mono_x (x1 x2 z : ℚ) (h12 : x1 ≤ x2) (hz : 0 < z) :
    newtonStep x1 z ≤ newtonStep x2 z := by
  unfold newtonStep
  have hdiv : x1 / z ≤ x2 / z := by
    gcongr
  linarith

theorem newtonIter_pos (x : ℚ) (hx : 0 < x) : ∀ n, 0 < newtonIter n x := by
  intro n
  induction n with
  | zero => exact hx
  | succ n ih => exact newtonStep_pos x _ hx ih

theorem newtonIter_sq_ge (x : ℚ) (hx : 0 < x) (n : ℕ) :
    x ≤ (newtonIter (n + 1) x) ^ 2 :=
  newtonStep_sq_ge x _ hx (newtonIter_pos x hx n)

theorem newtonIter_mono (x y : ℚ) (hx : 0 < x) (hxy : x ≤ y) :
    ∀ m, newtonIter (m + 1) x ≤ newtonIter (m + 1) y := by
  have hy : 0 < y := lt_of_lt_of_le hx hxy
  intro m
  induction m with
  | zero =>
    show newtonStep x x ≤ newtonStep y y
    have hx1 : newtonStep x x = (x + 1) / 2 := by
      unfold newtonStep
      rw [div_self (ne_of_gt hx)]
    have hy1 : newtonStep y y = (y + 1) / 2 := by
      unfold newtonStep
      rw [div_self (ne_of_gt hy)]
    rw [hx1, hy1]
    linarith
  | succ m ih =>
    show newtonStep x (newtonIter (m + 1) x) ≤ newtonStep y (newtonIter (m + 1) y)
    have h1 : newtonStep x (newtonIter (m + 1) x) ≤ newtonStep x (newtonIter (m + 1) y) :=
      newtonStep_mono_z x _ _ hx (newtonIter_pos x hx (m + 1)) ih
        (newtonIter_sq_ge x hx m)
    have h2 : newtonStep x (newtonIter (m + 1) y) ≤ newtonStep y (newtonIter (m + 1) y) :=
      newtonStep_mono_x x y _ hxy (newtonIter_pos y hy (m + 1))
    exact le_trans h1 h2

theorem sqrtGo_nonneg (x : ℚ) : 0 ≤ sqrtGo x := by
  unfold sqrtGo
  split_ifs with h
  · exact le_refl 0
  · exact le_of_lt (newtonIter_pos x (not_le.mp h) 10)

theorem sqrtGo_mono (x y : ℚ) (hx : 0 ≤ x) (hxy : x ≤ y) :
    sqrtGo x ≤ sqrtGo y := by
  unfold sqrtGo
  split_ifs with h1 h2 h3
  · exact le_refl 0
  · exact le_of_lt (newtonIter_pos y (not_le.mp h2) 10)
  · exact absurd (le_trans hxy h3) h1
  · exact newtonIter_mono x y (not_le.mp h1) hxy 9

theorem channelLevel_mono (c1 c2 : ℕ) (scale : ℚ) (hscale : 0 ≤ scale)
    (h : c1 ≤ c2) :
    ratTrunc (sqrtGo ((c1 : ℚ) / 255) * scale) ≤
      ratTrunc (sqrtGo ((c2 : ℚ) / 255) * scale) := by
  have hc : ((c1 : ℚ) / 255) ≤ ((c2 : ℚ) / 255) := by
    have hcq : (c1 : ℚ) ≤ (c2 : ℚ) := by exact_mod_cast h
    gcongr
  have hmono : sqrtGo ((c1 : ℚ) / 255) ≤ sqrtGo ((c2 : ℚ) / 255) :=
    sqrtGo_mono _ _ (by positivity) hc
  have hprod : sqrtGo ((c1 : ℚ) / 255) * scale ≤ sqrtGo ((c2 : ℚ) / 255) * scale :=
    mul_le_mul_of_nonneg_right hmono hscale
  rw [ratTrunc_of_nonneg (mul_nonneg (sqrtGo_nonneg _) hscale),
    ratTrunc_of_nonneg (mul_nonneg (sqrtGo_nonneg _) hscale)]
  exact Int.floor_le_floor hprod

theorem channelLevel_nonneg (c : ℕ) (scale : ℚ) (hscale : 0 ≤ scale) :
    0 ≤ ratTrunc (sqrtGo ((c : ℚ) / 255) * scale) := by
  rw [ratTrunc_of_nonneg (mul_nonneg (sqrtGo_nonneg _) hscale)]
  exact Int.floor_nonneg.mpr (mul_nonneg (sqrtGo_nonneg _) hscale)

/-- C4: for fixed green and blue, the 8-8-4 palette index is a
non-decreasing function of the red channel, despite the Newton–Raphson
square root. -/
theorem colorToPalette_mono_red (g b r1 r2 : ℕ) (h : r1 < r2) :
    colorToPalette r1 g b ≤ colorToPalette r2 g b := by
  have hR12 := channelLevel_mono r1 r2 (799/100) (by norm_num) (le_of_lt h)
  have hR1 := channelLevel_nonneg r1 (799/100) (by norm_num)
  have hR2 := channelLevel_nonneg r2 (799/100) (by norm_num)
  have hG := channelLevel_nonneg g (799/100) (by norm_num)
  have hB := channelLevel_nonneg b (399/100) (by norm_num)
  simp only [colorToPalette]
  split_ifs <;> omega

/-- Witness for C4 at red 0 versus red 255. -/
theorem colorToPalette_mono_red_witness :
    colorToPalette 0 0 0 ≤ colorToPalette 255 0 0 :=
  colorToPalette_mono_red 0 0 0 255 (by decide)

/-! ## C5: idempotence of the geometry map away from the width clamp -/

theorem fitHeight_halfpixel (A R : ℤ) (hA : 0 < A) (hR : 0 < R) :
    fitHeight A ((A : ℚ) / (((2 * R : ℤ)) : ℚ)) = R := by
  unfold fitHeight
  have hA0 : ((A : ℤ) : ℚ) ≠ 0 := by
    exact_mod_cast ne_of_gt hA
  have hR0 : ((R : ℤ) : ℚ) ≠ 0 := by
    exact_mod_cast ne_of_gt hR
  have hq : ((A : ℤ) : ℚ) / ((A : ℚ) / (((2 * R : ℤ)) : ℚ)) / 2 = ((R : ℤ) : ℚ) := by
    push_cast
    field_simp
  rw [hq, ratTrunc_intCast R hR.le]

theorem fitWidth_halfpixel (B w : ℤ) (hB : 0 < B) (hw : 0 ≤ w) :
    fitWidth B ((w : ℚ) / (((2 * B : ℤ)) : ℚ)) = w := by
  unfold fitWidth
  have hB0 : ((B : ℤ) : ℚ) ≠ 0 := by
    exact_mod_cast ne_of_gt hB
  have hq : ((B : ℤ) : ℚ) * ((w : ℚ) / (((2 * B : ℤ)) : ℚ)) * 2 = ((w : ℤ) : ℚ) := by
    push_cast
    field_simp
    ring
  rw [hq, ratTrunc_intCast w hw]

theorem calcCore_idem (a : ℚ) (A B : ℤ) (ha : 0 < a) (hA : 10 ≤ A) (hB : 5 ≤ B)
    (hpre : 10 ≤ corePreW a A B) :
    calcCore (((calcCore a A B).1 : ℚ) / (((2 * (calcCore a A B).2 : ℤ)) : ℚ)) A B
      = calcCore a A B := by
  have hA0 : (0 : ℤ) < A := by omega
  have hAq : (0 : ℚ) < (A : ℚ) := by exact_mod_cast hA0
  have hBq : (0 : ℚ) < (B : ℚ) := by
    have : (0 : ℤ) < B := by omega
    exact_mod_cast this
  have hq1 : (0 : ℚ) ≤ (A : ℚ) / a / 2 := by positivity
  have hrh0 : fitHeight A a = ⌊(A : ℚ) / a / 2⌋ := ratTrunc_of_nonneg hq1
  by_cases hcase : B < fitHeight A a
  · -- fit-to-height: the image is too tall for the width-first fit
    have hwq : (0 : ℚ) ≤ (B : ℚ) * a * 2 := by positivity
    have hw1 : fitWidth B a = ⌊(B : ℚ) * a * 2⌋ := ratTrunc_of_nonneg hwq
    have hw1nn : 0 ≤ fitWidth B a := by
      rw [hw1]
      exact Int.floor_nonneg.mpr hwq
    have hBq1 : ((B : ℚ) + 1) ≤ (A : ℚ) / a / 2 := by
      have hf : B + 1 ≤ ⌊(A : ℚ) / a / 2⌋ := by
        rw [← hrh0]
        omega
      calc ((B : ℚ) + 1) = ((B + 1 : ℤ) : ℚ) := by push_cast; ring
      _ ≤ (⌊(A : ℚ) / a / 2⌋ : ℚ) := by exact_mod_cast hf
      _ ≤ (A : ℚ) / a / 2 := Int.floor_le _
    have hkey : ((B : ℚ) + 1) * (a * 2) ≤ (A : ℚ) := by
      rw [div_div] at hBq1
      exact (le_div_iff₀ (by positivity)).mp hBq1
    have hw1A : fitWidth B a < A := by
      rw [hw1]
      apply Int.floor_lt.mpr
      push_cast
      nlinarith
    have hpw : corePreW a A B = fitWidth B a := by
      unfold corePreW
      simp only [if_pos hcase, if_neg (not_lt.mpr hw1A.le)]
    have hw10 : 10 ≤ fitWidth B a := by
      rw [hpw] at hpre
      exact hpre
    have hw1pos : (0 : ℚ) < ((fitWidth B a : ℤ) : ℚ) := by
      have : (0 : ℤ) < fitWidth B a := by omega
      exact_mod_cast this
    have h1 : calcCore a A B = (fitWidth B a, B) := by
      simp only [calcCore, if_pos hcase, if_neg (not_lt.mpr hw1A.le),
        if_neg (lt_irrefl B), if_neg (not_lt.mpr hw10), if_neg (not_lt.mpr hB)]
    have hle : ((fitWidth B a : ℤ) : ℚ) ≤ (B : ℚ) * a * 2 := by
      rw [hw1]
      exact Int.floor_le _
    have hfh2 : fitHeight A ((fitWidth B a : ℚ) / (((2 * B : ℤ)) : ℚ))
        = ⌊(A : ℚ) * (B : ℚ) / ((fitWidth B a : ℤ) : ℚ)⌋ := by
      unfold fitHeight
      have hq2 : ((A : ℤ) : ℚ) / (((fitWidth B a : ℤ) : ℚ) / (((2 * B : ℤ)) : ℚ)) / 2
          = (A : ℚ) * (B : ℚ) / ((fitWidth B a : ℤ) : ℚ) := by
        push_cast
        field_simp
        ring
      rw [hq2, ratTrunc_of_nonneg (by positivity)]
    have hBfloor : B < ⌊(A : ℚ) * (B : ℚ) / ((fitWidth B a : ℤ) : ℚ)⌋ := by
      have hstep : ((B + 1 : ℤ) : ℚ) ≤ (A : ℚ) * (B : ℚ) / ((fitWidth B a : ℤ) : ℚ) := by
        rw [le_div_iff₀ hw1pos]
        push_cast
        nlinarith
      have := Int.le_floor.mpr hstep
      omega
    have hfw2 : fitWidth B ((fitWidth B a : ℚ) / (((2 * B : ℤ)) : ℚ)) = fitWidth B a :=
      fitWidth_halfpixel B (fitWidth B a) (by omega) hw1nn
    have h2 : calcCore ((fitWidth B a : ℚ) / (((2 * B : ℤ)) : ℚ)) A B
        = (fitWidth B a, B) := by
      simp only [calcCore, hfh2, hfw2, if_pos hBfloor, if_neg (not_lt.mpr hw1A.le),
        if_neg (lt_irrefl B), if_neg (not_lt.mpr hw10), if_neg (not_lt.mpr hB)]
    rw [h1]
    exact h2
  · -- fit-to-width: the width-first height already fits
    have hfit : fitHeight A a ≤ B := not_lt.mp hcase
    have hrh0nn : 0 ≤ fitHeight A a := by
      rw [hrh0]
      exact Int.floor_nonneg.mpr hq1
    have h1 : calcCore a A B = (A, if fitHeight A a < 5 then 5 else fitHeight A a) := by
      simp only [calcCore, if_neg hcase, if_neg (lt_irrefl A), if_neg (not_lt.mpr hA)]
    have hR5 : 5 ≤ (if fitHeight A a < 5 then 5 else fitHeight A a) := by
      split_ifs <;> omega
    have hRB : (if fitHeight A a < 5 then 5 else fitHeight A a) ≤ B := by
      split_ifs <;> omega
    have hfh2 : fitHeight A
        ((A : ℚ) / (((2 * (if fitHeight A a < 5 then 5 else fitHeight A a) : ℤ)) : ℚ))
        = (if fitHeight A a < 5 then 5 else fitHeight A a) :=
      fitHeight_halfpixel A _ hA0 (by omega)
    have h2 : calcCore
        ((A : ℚ) / (((2 * (if fitHeight A a < 5 then 5 else fitHeight A a) : ℤ)) : ℚ)) A B
        = (A, if fitHeight A a < 5 then 5 else fitHeight A a) := by
      simp only [calcCore, hfh2, if_neg (not_lt.mpr hRB), if_neg (lt_irrefl A),
        if_neg (not_lt.mpr hA), if_neg (not_lt.mpr hR5)]
    rw [h1]
    exact h2

/-- C5 amended: whenever the width produced before the final 10-pixel
minimum clamp is already at least 10 (the clamp does not fire), the
cell-geometry calculation is idempotent through the half-block pixel
dimensions (rw, 2·rh); the counterexample shows the clamped case can
widen on re-application. -/
theorem calcRender_idempotent_no_min_clamp (iw ih tw th : ℤ)
    (hiw : 0 < iw) (hih : 0 < ih)
    (hpre : 10 ≤ calcPreMinWidth iw ih tw th) :
    calculateOptimalRenderSize (calculateOptimalRenderSize iw ih tw th).1
      (2 * (calculateOptimalRenderSize iw ih tw th).2) tw th
      = calculateOptimalRenderSize iw ih tw th := by
  have hiwq : (0 : ℚ) < (iw : ℚ) := by exact_mod_cast hiw
  have hihq : (0 : ℚ) < (ih : ℚ) := by exact_mod_cast hih
  have ha : 0 < (iw : ℚ) / (ih : ℚ) := div_pos hiwq hihq
  have hA : 10 ≤ maxWOf tw := by
    unfold maxWOf
    split_ifs with h <;> omega
  have hB : 5 ≤ maxHOf th := by
    unfold maxHOf
    split_ifs with h <;> omega
  unfold calculateOptimalRenderSize
  exact calcCore_idem ((iw : ℚ) / (ih : ℚ)) (maxWOf tw) (maxHOf th) ha hA hB hpre

/-- Witness for the amended C5 on a 16:9 source in an 80×24 terminal. -/
theorem calcRender_idempotent_no_min_clamp_witness :
    calculateOptimalRenderSize (calculateOptimalRenderSize 16 9 80 24).1
      (2 * (calculateOptimalRenderSize 16 9 80 24).2) 80 24
      = calculateOptimalRenderSize 16 9 80 24 :=
  calcRender_idempotent_no_min_clamp 16 9 80 24 (by decide) (by decide)
    (by
      unfold calcPreMinWidth corePreW fitHeight fitWidth maxWOf maxHOf ratTrunc
      norm_num)

end TerminalTube
